import Mathlib

/-!
Verification of the rsearch core (src/search.rs and the integer decode in
src/ui/components/data_inspector.rs) against its natural-language
specification.  Bytes are modelled as natural numbers (values < 256 by
construction of the encoder), byte buffers as lists of naturals, machine
integers as Nat / Int with explicit reductions modulo 2 ^ width.
-/

namespace RSearch

/-! ## Data model: Endianness and Needle (src/search.rs lines 86-104) -/

inductive Endianness where
  | BigEndian
  | LittleEndian
deriving DecidableEq, Repr

inductive Needle where
  | U8 (v : Nat)
  | I8 (v : Int)
  | U16 (e : Endianness) (v : Nat)
  | I16 (e : Endianness) (v : Int)
  | U32 (e : Endianness) (v : Nat)
  | I32 (e : Endianness) (v : Int)
  | U64 (e : Endianness) (v : Nat)
  | I64 (e : Endianness) (v : Int)
  | Bytes (v : List Nat)
  | Str (v : List Nat)
deriving DecidableEq, Repr

/-- Little-endian byte string of a `w`-byte unsigned machine integer,
mirroring Rust `uN::to_le_bytes` (the value is reduced mod `2 ^ (8 * w)`
by construction, which models the machine-integer range). -/
def toLeBytes : Nat → Nat → List Nat
  | 0, _ => []
  | w + 1, v => v % 256 :: toLeBytes w (v / 256)

/-- Big-endian byte string, mirroring Rust `uN::to_be_bytes`. -/
def toBeBytes (w v : Nat) : List Nat :=
  (toLeBytes w v).reverse

/-- Two's-complement bit pattern of a signed `w`-byte machine integer,
as a natural number: models the Rust bit-cast `iN as uN`. -/
def intBits (w : Nat) (v : Int) : Nat :=
  (v % ((2 : Int) ^ (8 * w))).toNat

/-- The owned byte pattern (src/search.rs `NeedleOwned`, a boxed byte
slice). -/
structure NeedleOwned where
  needle : List Nat
deriving DecidableEq, Repr

/-- src/search.rs `NeedleOwned::byte_length`. -/
def NeedleOwned.byteLength (n : NeedleOwned) : Nat :=
  n.needle.length

/-- The needle encoder: src/search.rs lines 134-159,
`impl From<Needle> for NeedleOwned`.  Signed variants encode the
two's-complement bit pattern (`v.to_le_bytes()` / `v.to_be_bytes()` on
`iN` equals the byte string of the bit-cast unsigned value). -/
def NeedleOwned.fromNeedle : Needle → NeedleOwned
  | .U8 v => ⟨[v % 256]⟩
  | .I8 v => ⟨[intBits 1 v]⟩
  | .Bytes v => ⟨v⟩
  | .Str v => ⟨v⟩
  | .U16 .BigEndian v => ⟨toBeBytes 2 v⟩
  | .U16 .LittleEndian v => ⟨toLeBytes 2 v⟩
  | .I16 .BigEndian v => ⟨toBeBytes 2 (intBits 2 v)⟩
  | .I16 .LittleEndian v => ⟨toLeBytes 2 (intBits 2 v)⟩
  | .U32 .BigEndian v => ⟨toBeBytes 4 v⟩
  | .U32 .LittleEndian v => ⟨toLeBytes 4 v⟩
  | .I32 .BigEndian v => ⟨toBeBytes 4 (intBits 4 v)⟩
  | .I32 .LittleEndian v => ⟨toLeBytes 4 (intBits 4 v)⟩
  | .U64 .BigEndian v => ⟨toBeBytes 8 v⟩
  | .U64 .LittleEndian v => ⟨toLeBytes 8 v⟩
  | .I64 .BigEndian v => ⟨toBeBytes 8 (intBits 8 v)⟩
  | .I64 .LittleEndian v => ⟨toLeBytes 8 (intBits 8 v)⟩

/-! ## Decoding (src/ui/components/data_inspector.rs): the data inspector
reconstructs the numeric value from bytes with `uN::from_le_bytes`,
`uN::from_be_bytes` and their signed counterparts. -/

/-- Value of a little-endian byte string, mirroring `uN::from_le_bytes`. -/
def fromLeBytes : List Nat → Nat
  | [] => 0
  | b :: rest => b % 256 + 256 * fromLeBytes rest

/-- Value of a big-endian byte string, mirroring `uN::from_be_bytes`. -/
def fromBeBytes (bs : List Nat) : Nat :=
  fromLeBytes bs.reverse

/-- Reinterpret a `w`-byte unsigned value as signed two's complement:
models the bit-cast performed by `iN::from_le_bytes`. -/
def toSigned (w u : Nat) : Int :=
  if u < 2 ^ (8 * w - 1) then (u : Int) else (u : Int) - (2 : Int) ^ (8 * w)

/-! ## Search executor (src/search.rs lines 177-185, via memchr memmem)

The worker runs `memmem::find_iter(hs, needle)` and sends every produced
offset.  `Finder::find` returns the leftmost match index in the given
haystack (`Some(0)` for an empty needle).  The iterator keeps a cursor
`pos`; each step takes `haystack.get(pos..)` (None once `pos` exceeds the
haystack length), finds the leftmost match in that tail, yields
`pos + idx` and advances the cursor by `max(1, needle.len())`, so the
produced occurrences are non-overlapping. -/

/-- Does the pattern `P` occur in `H` at index `i`?  (`H[i..i+|P|] == P`.) -/
def matchAt (H P : List Nat) (i : Nat) : Bool :=
  (H.drop i).take P.length == P

/-- Leftmost match index of `pat` in `hay`: models `memmem::Finder::find`.
A match at `i` forces `i + pat.length <= hay.length` when `pat` is
non-empty, and an empty `pat` matches at 0, so searching
`0 .. hay.length` is exhaustive. -/
def memmemFind (hay pat : List Nat) : Option Nat :=
  (List.range (hay.length + 1)).find? (matchAt hay pat)

/-- One step of `memmem::FindIter::next`, iterated with explicit fuel.
The cursor behaviour mirrors the iterator: stop when the cursor passed
the end, otherwise find the leftmost match in the remaining tail, yield
its absolute position and advance by `max(1, |pat|)`.  Fuel at least
`H.length + 1 - pos` is enough, since the cursor strictly increases. -/
def findIterAux (H P : List Nat) : Nat → Nat → List Nat
  | 0, _ => []
  | fuel + 1, pos =>
    if H.length < pos then []
    else
      match memmemFind (H.drop pos) P with
      | none => []
      | some idx => (pos + idx) :: findIterAux H P fuel (pos + idx + max 1 P.length)

/-- The full offset sequence produced by `memmem::find_iter(H, P)`, i.e.
the sequence of offsets the search worker sends to the channel (the
worker's `for n in it` loop, uninterrupted). -/
def findIter (H P : List Nat) : List Nat :=
  findIterAux H P (H.length + 2) 0

/-! ## Specification-side occurrence sets (for claim C1) -/

/-- Modelled from the spec: the set of all match positions, overlapping
occurrences included, as a strictly increasing list — the offsets claim
C1 says the worker sends. -/
def allOccurrences (H P : List Nat) : List Nat :=
  (List.range (H.length + 1)).filter (matchAt H P)

/-- Greedy left-to-right selection of non-overlapping positions out of an
increasing candidate list: keep a position when it is at least `lo`, then
require the next kept position to start `max(1, plen)` later. -/
def greedyFrom (plen : Nat) : List Nat → Nat → List Nat
  | [], _ => []
  | i :: rest, lo =>
    if i < lo then greedyFrom plen rest lo
    else i :: greedyFrom plen rest (i + max 1 plen)

/-- Modelled from the spec (amended claim C1): the greedy non-overlapping
sub-selection of all occurrences. -/
def nonOverlapOccurrences (H P : List Nat) : List Nat :=
  greedyFrom P.length (allOccurrences H P) 0

/-! ## Async search session (src/search.rs lines 161-228)

The session is modelled by the observable state of its mpsc channel: the
FIFO of offsets that were sent but not yet received, and whether the
sender (held by the worker for exactly the worker's lifetime) is still
alive.  `try_recv` returns the front of the FIFO when non-empty; on an
empty FIFO it reports `Empty` while the sender lives and `Disconnected`
after it is dropped. -/

inductive SearchState where
  | Pending
  | Finished
deriving DecidableEq, Repr

structure SessionState where
  buffered : List Nat
  workerAlive : Bool
deriving DecidableEq, Repr

/-- src/search.rs `AsyncSearch::try_get` (lines 201-208): a non-blocking
poll of the channel, mapping `Empty` to `Pending` and `Disconnected` to
`Finished`.  Receiving consumes the front of the FIFO. -/
def tryGet (s : SessionState) : Except SearchState (Nat × SessionState) :=
  match s.buffered with
  | [] => .error (if s.workerAlive then .Pending else .Finished)
  | v :: rest => .ok (v, ⟨rest, s.workerAlive⟩)

/-- src/search.rs `AsyncSearch::drain` (lines 210-220): loop on `try_get`,
collecting each ready offset (the callback invocations, in order) until
an error state is observed; returns the invocation list, that state and
the session state left behind. -/
def drain : SessionState → List Nat × SearchState × SessionState
  | ⟨[], alive⟩ => ([], if alive then .Pending else .Finished, ⟨[], alive⟩)
  | ⟨v :: rest, alive⟩ =>
    let r := drain ⟨rest, alive⟩
    (v :: r.1, r.2.1, r.2.2)

/-- Actions of the worker thread on the channel: while alive it may send
one more offset (appended to the FIFO) or exit (dropping the sender). -/
inductive WorkerStep : SessionState → SessionState → Prop
  | send (s : SessionState) (v : Nat) :
      s.workerAlive = true → WorkerStep s ⟨s.buffered ++ [v], true⟩
  | exit (s : SessionState) :
      s.workerAlive = true → WorkerStep s ⟨s.buffered, false⟩

/-- Interleaving of worker actions and consumer polls. -/
inductive SessionStep : SessionState → SessionState → Prop
  | worker {s t : SessionState} : WorkerStep s t → SessionStep s t
  | recv {s t : SessionState} (v : Nat) :
      tryGet s = .ok (v, t) → SessionStep s t

/-- Outcome of the worker thread, as observed by `JoinHandle::join`. -/
inductive WorkerOutcome where
  | completed
  | panicked
deriving DecidableEq, Repr

/-- src/search.rs `AsyncSearch::cancel` (lines 222-227): drop the
receiver, join the worker, and turn a panicked join into the error value
"Sub-thread panicked". -/
def cancel (outcome : WorkerOutcome) : Except String Unit :=
  match outcome with
  | .completed => .ok ()
  | .panicked => .error "Sub-thread panicked"

/-- The channel state after the worker ran to completion on haystack `H`
and pattern `P` with no consumer poll in between: everything
`memmem::find_iter` produces is buffered and the sender is dropped. -/
def finalSession (H P : List Nat) : SessionState :=
  ⟨findIter H P, false⟩

/-! ## Numeric needle kinds (statement plumbing for claims C3 and C5) -/

inductive NumKind where
  | u8 | i8 | u16 | i16 | u32 | i32 | u64 | i64
deriving DecidableEq, Repr

def kindWidth : NumKind → Nat
  | .u8 => 1 | .i8 => 1
  | .u16 => 2 | .i16 => 2
  | .u32 => 4 | .i32 => 4
  | .u64 => 8 | .i64 => 8

def kindSigned : NumKind → Bool
  | .u8 => false | .i8 => true
  | .u16 => false | .i16 => true
  | .u32 => false | .i32 => true
  | .u64 => false | .i64 => true

/-- Build the numeric needle of a given kind and endianness holding the
machine value `v` (unsigned kinds take the value `v.toNat`). -/
def mkNeedle : NumKind → Endianness → Int → Needle
  | .u8, _, v => .U8 v.toNat
  | .i8, _, v => .I8 v
  | .u16, e, v => .U16 e v.toNat
  | .i16, e, v => .I16 e v
  | .u32, e, v => .U32 e v.toNat
  | .i32, e, v => .I32 e v
  | .u64, e, v => .U64 e v.toNat
  | .i64, e, v => .I64 e v

/-- Decode a byte pattern as the data inspector does for the matching
width, signedness and endianness (`uN::from_le_bytes`,
`uN::from_be_bytes` and the signed bit-cast, data_inspector.rs). -/
def decodeNum (k : NumKind) (e : Endianness) (bs : List Nat) : Int :=
  let u := match e with
    | .LittleEndian => fromLeBytes bs
    | .BigEndian => fromBeBytes bs
  if kindSigned k then toSigned (kindWidth k) u else (u : Int)

/-- The representable range of a numeric kind (the Rust machine-integer
range of the corresponding type). -/
def inRange (k : NumKind) (v : Int) : Prop :=
  if kindSigned k then
    -((2 : Int) ^ (8 * kindWidth k - 1)) ≤ v ∧ v < 2 ^ (8 * kindWidth k - 1)
  else 0 ≤ v ∧ v < 2 ^ (8 * kindWidth k)

instance (k : NumKind) (v : Int) : Decidable (inRange k v) := by
  unfold inRange
  split <;> infer_instance

/-- The fixed byte width of a numeric needle variant, `none` for the
`Bytes` and `Str` variants. -/
def numericWidth : Needle → Option Nat
  | .U8 _ => some 1
  | .I8 _ => some 1
  | .U16 _ _ => some 2
  | .I16 _ _ => some 2
  | .U32 _ _ => some 4
  | .I32 _ _ => some 4
  | .U64 _ _ => some 8
  | .I64 _ _ => some 8
  | .Bytes _ => none
  | .Str _ => none

/-! ## Encoder lemmas -/

theorem toLeBytes_length (w : Nat) : ∀ v, (toLeBytes w v).length = w := by
  induction w with
  | zero => intro v; rfl
  | succ w ih => intro v; simp [toLeBytes, ih]

theorem toBeBytes_length (w v : Nat) : (toBeBytes w v).length = w := by
  simp [toBeBytes, toLeBytes_length]

theorem fromLeBytes_toLeBytes (w : Nat) : ∀ v, fromLeBytes (toLeBytes w v) = v % 2 ^ (8 * w) := by
  induction w with
  | zero => intro v; simp [toLeBytes, fromLeBytes]; omega
  | succ w ih =>
    intro v
    have hp : 2 ^ (8 * (w + 1)) = 256 * 2 ^ (8 * w) := by
      rw [show 8 * (w + 1) = 8 + 8 * w by ring, pow_add]
      norm_num
    rw [toLeBytes, fromLeBytes, ih, hp, Nat.mod_mul]
    omega

theorem fromBeBytes_toBeBytes (w v : Nat) : fromBeBytes (toBeBytes w v) = v % 2 ^ (8 * w) := by
  rw [fromBeBytes, toBeBytes, List.reverse_reverse, fromLeBytes_toLeBytes]

theorem toSigned_intBits (w : Nat) (v : Int) (hw : 1 ≤ w)
    (h1 : -((2 : Int) ^ (8 * w - 1)) ≤ v) (h2 : v < 2 ^ (8 * w - 1)) :
    toSigned w (intBits w v) = v := by
  have hM : (2 : Int) ^ (8 * w) = 2 ^ (8 * w - 1) * 2 := by
    rw [← pow_succ]
    congr 1
    omega
  have hHpos : (0 : Int) < 2 ^ (8 * w - 1) := by positivity
  have hc1 : (((2 ^ (8 * w - 1) : Nat)) : Int) = (2 : Int) ^ (8 * w - 1) := by
    push_cast
    rfl
  rcases le_or_lt 0 v with hv | hv
  · have hmod : v % (2 : Int) ^ (8 * w) = v := Int.emod_eq_of_lt hv (by omega)
    unfold toSigned intBits
    rw [hmod]
    split <;> omega
  · have hmod : v % (2 : Int) ^ (8 * w) = v + 2 ^ (8 * w) := by
      have h3 : (v + 2 ^ (8 * w) * 1) % (2 ^ (8 * w)) = v % 2 ^ (8 * w) :=
        Int.add_mul_emod_self_left v (2 ^ (8 * w)) 1
      rw [mul_one] at h3
      rw [← h3]
      exact Int.emod_eq_of_lt (by omega) (by omega)
    unfold toSigned intBits
    rw [hmod]
    split <;> omega

/-- Claim C3: for every numeric needle value of width 1, 2, 4 or 8 bytes
(signed or unsigned) and either endianness, decoding the encoded byte
pattern with the matching width, signedness and endianness yields the
value again: decode (encode v) = v. -/
theorem claim_c3_decode_encode_roundtrip (k : NumKind) (e : Endianness) (v : Int)
    (h : inRange k v) :
    decodeNum k e (NeedleOwned.fromNeedle (mkNeedle k e v)).needle = v := by
  cases k <;> cases e <;>
    (simp only [inRange, kindSigned, kindWidth, if_true, if_false] at h ;
     simp [mkNeedle, NeedleOwned.fromNeedle, decodeNum, kindSigned, kindWidth,
       fromBeBytes_toBeBytes, fromLeBytes_toLeBytes, fromBeBytes, fromLeBytes,
       toSigned, intBits] ;
     norm_num at h ⊢ ;
     omega)

/-- Witness for claim C3 at the concrete input I16(BigEndian, -1234). -/
theorem claim_c3_witness :
    inRange NumKind.i16 (-1234) ∧
    decodeNum NumKind.i16 Endianness.BigEndian
      (NeedleOwned.fromNeedle (mkNeedle NumKind.i16 Endianness.BigEndian (-1234))).needle
      = -1234 :=
  ⟨by decide, claim_c3_decode_encode_roundtrip NumKind.i16 Endianness.BigEndian (-1234)
    (by decide)⟩

/-- Claim C4: U16(LittleEndian, 0x1234) encodes to [0x34, 0x12],
U16(BigEndian, 0x1234) encodes to [0x12, 0x34], and I8(-1) encodes to
the single byte 0xFF (two's complement). -/
theorem claim_c4_concrete_encodings :
    (NeedleOwned.fromNeedle (.U16 .LittleEndian 0x1234)).needle = [0x34, 0x12] ∧
    (NeedleOwned.fromNeedle (.U16 .BigEndian 0x1234)).needle = [0x12, 0x34] ∧
    (NeedleOwned.fromNeedle (.I8 (-1))).needle = [0xFF] := by
  decide

/-- Claim C5: encoding is total (it is a Lean function on all needle
values), and for every numeric variant the encoded pattern has exactly
the variant's fixed byte width and is never empty. -/
theorem claim_c5_numeric_width (n : Needle) (w : Nat) (hw : numericWidth n = some w) :
    (NeedleOwned.fromNeedle n).byteLength = w ∧ (NeedleOwned.fromNeedle n).needle ≠ [] := by
  cases n <;> try cases ‹Endianness›
  all_goals
    simp_all [numericWidth, NeedleOwned.fromNeedle, NeedleOwned.byteLength,
      toBeBytes, toLeBytes]

/-- Witness for claim C5 at the concrete input U32(LittleEndian, 7). -/
theorem claim_c5_witness :
    numericWidth (.U32 .LittleEndian 7) = some 4 ∧
    (NeedleOwned.fromNeedle (.U32 .LittleEndian 7)).byteLength = 4 ∧
    (NeedleOwned.fromNeedle (.U32 .LittleEndian 7)).needle ≠ [] :=
  ⟨by decide,
   (claim_c5_numeric_width (.U32 .LittleEndian 7) 4 (by decide)).1,
   (claim_c5_numeric_width (.U32 .LittleEndian 7) 4 (by decide)).2⟩

/-! ## Search executor lemmas -/

theorem matchAt_iff {H P : List Nat} {i : Nat} :
    matchAt H P i = true ↔ (H.drop i).take P.length = P := by
  simp [matchAt]

theorem matchAt_shift (H P : List Nat) (pos idx : Nat) :
    matchAt (H.drop pos) P idx = matchAt H P (pos + idx) := by
  unfold matchAt
  rw [List.drop_drop, Nat.add_comm pos idx]

theorem matchAt_le_length {H P : List Nat} {i : Nat} (hne : P ≠ [])
    (h : matchAt H P i = true) : i + P.length ≤ H.length := by
  have h1 := matchAt_iff.mp h
  have h2 := congrArg List.length h1
  simp [List.length_take, List.length_drop] at h2
  have h3 : 0 < P.length := List.length_pos.mpr hne
  omega

theorem find?_range'_some (p : Nat → Bool) :
    ∀ (n s i : Nat), (List.range' s n).find? p = some i →
      s ≤ i ∧ i < s + n ∧ p i = true ∧ ∀ j, s ≤ j → j < i → p j = false := by
  intro n
  induction n with
  | zero => intro s i h; simp [List.range'] at h
  | succ n ih =>
    intro s i h
    rw [List.range'_succ] at h
    cases hp : p s with
    | true =>
      rw [List.find?_cons_of_pos _ hp] at h
      injection h with h
      subst h
      exact ⟨Nat.le_refl s, by omega, hp, fun j h1 h2 => absurd (Nat.lt_of_lt_of_le h2 h1)
        (Nat.lt_irrefl j)⟩
    | false =>
      rw [List.find?_cons_of_neg _ (by simp [hp])] at h
      obtain ⟨h1, h2, h3, h4⟩ := ih (s + 1) i h
      refine ⟨by omega, by omega, h3, ?_⟩
      intro j hj1 hj2
      rcases Nat.eq_or_lt_of_le hj1 with hej | hlt
      · rw [← hej]; exact hp
      · exact h4 j hlt hj2

theorem find?_range'_none (p : Nat → Bool) (n s : Nat)
    (h : (List.range' s n).find? p = none) :
    ∀ j, s ≤ j → j < s + n → p j = false := by
  intro j h1 h2
  have := List.find?_eq_none.mp h j (List.mem_range'_1.mpr ⟨h1, h2⟩)
  simpa using this

theorem memmemFind_some {hay pat : List Nat} {idx : Nat}
    (h : memmemFind hay pat = some idx) :
    idx ≤ hay.length ∧ matchAt hay pat idx = true ∧
      ∀ j, j < idx → matchAt hay pat j = false := by
  unfold memmemFind at h
  rw [List.range_eq_range'] at h
  obtain ⟨h1, h2, h3, h4⟩ := find?_range'_some _ _ _ _ h
  exact ⟨by omega, h3, fun j hj => h4 j (Nat.zero_le j) hj⟩

theorem memmemFind_none {hay pat : List Nat}
    (h : memmemFind hay pat = none) :
    ∀ j, j ≤ hay.length → matchAt hay pat j = false := by
  unfold memmemFind at h
  rw [List.range_eq_range'] at h
  intro j hj
  exact find?_range'_none _ _ _ h j (Nat.zero_le j) (by omega)

theorem memmemFind_eq_none (hay pat : List Nat)
    (h : ∀ j, j ≤ hay.length → matchAt hay pat j = false) :
    memmemFind hay pat = none := by
  unfold memmemFind
  apply List.find?_eq_none.mpr
  intro x hx
  rw [List.mem_range] at hx
  simp [h x (by omega)]

theorem memmemFind_nil (hay : List Nat) : memmemFind hay [] = some 0 := by
  unfold memmemFind
  rw [List.range_eq_range', List.range'_succ, List.find?_cons_of_pos]
  simp [matchAt]

theorem mem_allOccurrences {H P : List Nat} {i : Nat} :
    i ∈ allOccurrences H P ↔ i ≤ H.length ∧ matchAt H P i = true := by
  simp [allOccurrences, List.mem_filter, List.mem_range, Nat.lt_succ_iff]

theorem allOccurrences_pairwise (H P : List Nat) :
    (allOccurrences H P).Pairwise (· < ·) :=
  (List.pairwise_lt_range _).filter _

theorem greedyFrom_append_skip (plen : Nat) :
    ∀ (xs ys : List Nat) (lo : Nat), (∀ x ∈ xs, x < lo) →
      greedyFrom plen (xs ++ ys) lo = greedyFrom plen ys lo := by
  intro xs
  induction xs with
  | nil => intro ys lo _; rfl
  | cons x xs ih =>
    intro ys lo h
    have hx : x < lo := h x (List.mem_cons_self x xs)
    rw [List.cons_append]
    show greedyFrom plen (x :: (xs ++ ys)) lo = greedyFrom plen ys lo
    rw [greedyFrom, if_pos hx]
    exact ih ys lo (fun y hy => h y (List.mem_cons_of_mem x hy))

theorem greedyFrom_nil_of (plen : Nat) (xs : List Nat) (lo : Nat)
    (h : ∀ x ∈ xs, x < lo) : greedyFrom plen xs lo = [] := by
  have h2 := greedyFrom_append_skip plen xs [] lo h
  simpa using h2

theorem greedyFrom_sublist (plen : Nat) :
    ∀ (xs : List Nat) (lo : Nat), List.Sublist (greedyFrom plen xs lo) xs := by
  intro xs
  induction xs with
  | nil => intro lo; exact List.Sublist.refl []
  | cons x xs ih =>
    intro lo
    rw [greedyFrom]
    split
    · exact (ih lo).cons x
    · exact (ih (x + max 1 plen)).cons₂ x

theorem findIterAux_eq_greedy (H P : List Nat) :
    ∀ (fuel pos : Nat), H.length + 1 ≤ fuel + pos →
      findIterAux H P fuel pos = greedyFrom P.length (allOccurrences H P) pos := by
  intro fuel
  induction fuel with
  | zero =>
    intro pos hf
    rw [findIterAux, greedyFrom_nil_of]
    intro x hx
    have := (mem_allOccurrences.mp hx).1
    omega
  | succ fuel ih =>
    intro pos hf
    rw [findIterAux]
    split
    case isTrue hlt =>
      rw [greedyFrom_nil_of]
      intro x hx
      have := (mem_allOccurrences.mp hx).1
      omega
    case isFalse hge =>
      cases hfind : memmemFind (H.drop pos) P with
      | none =>
        rw [greedyFrom_nil_of]
        intro x hx
        obtain ⟨hx1, hx2⟩ := mem_allOccurrences.mp hx
        by_contra hcon
        push_neg at hcon
        have hj : x - pos ≤ (H.drop pos).length := by
          rw [List.length_drop]
          omega
        have hm := memmemFind_none hfind (x - pos) hj
        rw [matchAt_shift, show pos + (x - pos) = x from by omega, hx2] at hm
        cases hm
      | some idx =>
        obtain ⟨hidx_le, hmatch, hmin⟩ := memmemFind_some hfind
        rw [List.length_drop] at hidx_le
        rw [matchAt_shift] at hmatch
        have hmem : pos + idx ∈ allOccurrences H P :=
          mem_allOccurrences.mpr ⟨by omega, hmatch⟩
        obtain ⟨pre, rest, hsplit⟩ := List.append_of_mem hmem
        have hpair := allOccurrences_pairwise H P
        rw [hsplit] at hpair
        have hpre_lt : ∀ x ∈ pre, x < pos + idx := by
          intro x hx
          exact (List.pairwise_append.mp hpair).2.2 x hx (pos + idx)
            (List.mem_cons_self (pos + idx) rest)
        have hpre_pos : ∀ x ∈ pre, x < pos := by
          intro x hx
          have hxm := hpre_lt x hx
          by_contra hcon
          push_neg at hcon
          have hxmem : x ∈ allOccurrences H P := by
            rw [hsplit]
            exact List.mem_append_left _ hx
          obtain ⟨hxle, hxmatch⟩ := mem_allOccurrences.mp hxmem
          have hmm := hmin (x - pos) (by omega)
          rw [matchAt_shift, show pos + (x - pos) = x from by omega, hxmatch] at hmm
          cases hmm
        have hih := ih (pos + idx + max 1 P.length) (by omega)
        show (pos + idx) :: findIterAux H P fuel (pos + idx + max 1 P.length) =
          greedyFrom P.length (allOccurrences H P) pos
        rw [hih, hsplit, greedyFrom_append_skip _ pre _ pos hpre_pos, greedyFrom,
          if_neg (by omega)]
        congr 1
        rw [show pre ++ (pos + idx) :: rest = (pre ++ [pos + idx]) ++ rest from by simp,
          greedyFrom_append_skip]
        intro x hx
        rw [List.mem_append] at hx
        rcases hx with hx | hx
        · have := hpre_lt x hx
          omega
        · have hx2 : x = pos + idx := by simpa using hx
          omega

theorem findIter_eq_nonOverlap (H P : List Nat) :
    findIter H P = nonOverlapOccurrences H P :=
  findIterAux_eq_greedy H P (H.length + 2) 0 (by omega)

theorem findIterAux_nil_pattern (H : List Nat) :
    ∀ (fuel pos : Nat), H.length + 1 ≤ fuel + pos →
      findIterAux H [] fuel pos = List.range' pos (H.length + 1 - pos) := by
  intro fuel
  induction fuel with
  | zero =>
    intro pos hf
    rw [findIterAux, show H.length + 1 - pos = 0 from by omega, List.range']
  | succ fuel ih =>
    intro pos hf
    rw [findIterAux]
    split
    case isTrue hlt =>
      rw [show H.length + 1 - pos = 0 from by omega, List.range']
    case isFalse hge =>
      rw [memmemFind_nil]
      show (pos + 0) :: findIterAux H [] fuel (pos + 0 + max 1 ([] : List Nat).length) =
        List.range' pos (H.length + 1 - pos)
      rw [show pos + 0 + max 1 ([] : List Nat).length = pos + 1 from by simp]
      rw [ih (pos + 1) (by omega)]
      rw [show H.length + 1 - pos = (H.length + 1 - (pos + 1)) + 1 from by omega,
        List.range'_succ, Nat.add_zero]

/-- Claim C1 counterexample: for haystack [0,0,0] and pattern [0,0]
(non-empty, not longer than the haystack), the occurrence set including
overlaps is \x7b0, 1\x7d but the worker emits only [0]: memmem's iterator
skips past each match, so overlapping occurrences are dropped. -/
theorem claim_c1_counterexample :
    ([0, 0] : List Nat) ≠ [] ∧
    ([0, 0] : List Nat).length ≤ ([0, 0, 0] : List Nat).length ∧
    allOccurrences [0, 0, 0] [0, 0] = [0, 1] ∧
    findIter [0, 0, 0] [0, 0] = [0] ∧
    findIter [0, 0, 0] [0, 0] ≠ allOccurrences [0, 0, 0] [0, 0] := by
  decide

/-- Claim C1 (amended): for every haystack H and non-empty pattern P with
|P| <= |H|, the offsets the worker sends are exactly the greedy
left-to-right non-overlapping occurrences of P in H (each match is the
leftmost occurrence starting at least |P| after the previous one), in
strictly increasing order. -/
theorem claim_c1_worker_offsets (H P : List Nat) (_hne : P ≠ [])
    (_hlen : P.length ≤ H.length) :
    findIter H P = nonOverlapOccurrences H P ∧
      (findIter H P).Pairwise (· < ·) := by
  refine ⟨findIter_eq_nonOverlap H P, ?_⟩
  rw [findIter_eq_nonOverlap]
  unfold nonOverlapOccurrences
  exact (allOccurrences_pairwise H P).sublist (greedyFrom_sublist _ _ _)

/-- Witness for claim C1 (amended) at haystack [1,2,1,2], pattern [1,2]. -/
theorem claim_c1_witness :
    ([1, 2] : List Nat) ≠ [] ∧
    ([1, 2] : List Nat).length ≤ ([1, 2, 1, 2] : List Nat).length ∧
    (findIter [1, 2, 1, 2] [1, 2] = nonOverlapOccurrences [1, 2, 1, 2] [1, 2] ∧
      (findIter [1, 2, 1, 2] [1, 2]).Pairwise (· < ·)) :=
  ⟨by decide, by decide, claim_c1_worker_offsets [1, 2, 1, 2] [1, 2] (by decide) (by decide)⟩

/-- Claim C2 counterexample: on haystack [7] with the empty pattern the
worker sends the offsets [0, 1] (one per position, including one past
the end), not zero offsets. -/
theorem claim_c2_counterexample :
    findIter [7] [] = [0, 1] ∧ findIter [7] [] ≠ [] := by
  decide

/-- Claim C2 (amended): for every haystack H, an empty pattern makes the
worker send exactly |H| + 1 offsets, namely 0, 1, ..., |H| in order
(memmem's empty needle matches at every position including one past the
end), and then exit; it does not loop forever. -/
theorem claim_c2_empty_pattern (H : List Nat) :
    findIter H [] = List.range (H.length + 1) := by
  rw [findIter, findIterAux_nil_pattern H (H.length + 2) 0 (by omega),
    List.range_eq_range', Nat.sub_zero]

/-- Claim C6: when the pattern is longer than the haystack the worker
sends no offsets, and polling the completed session yields Finished
without ever returning an offset (a drain performs zero callback
invocations and reports Finished). -/
theorem claim_c6_long_pattern (H P : List Nat) (h : H.length < P.length) :
    findIter H P = [] ∧ tryGet (finalSession H P) = .error .Finished ∧
      drain (finalSession H P) = ([], .Finished, finalSession H P) := by
  have hP : P ≠ [] := by
    intro hc
    rw [hc] at h
    simp at h
  have hnone : memmemFind H P = none := by
    apply memmemFind_eq_none
    intro j hj
    cases hmt : matchAt H P j with
    | false => rfl
    | true => exact absurd (matchAt_le_length hP hmt) (by omega)
  have h0 : findIter H P = [] := by
    rw [findIter, findIterAux, if_neg (by omega)]
    rw [List.drop_zero, hnone]
  refine ⟨h0, ?_, ?_⟩ <;> simp [finalSession, h0, tryGet, drain]

/-- Witness for claim C6 at haystack [5], pattern [1,2]. -/
theorem claim_c6_witness :
    ([5] : List Nat).length < ([1, 2] : List Nat).length ∧
    (findIter [5] [1, 2] = [] ∧ tryGet (finalSession [5] [1, 2]) = .error .Finished ∧
      drain (finalSession [5] [1, 2]) = ([], .Finished, finalSession [5] [1, 2])) :=
  ⟨by decide, claim_c6_long_pattern [5] [1, 2] (by decide)⟩

/-! ## Session lemmas -/

theorem workerStep_alive {s t : SessionState} (h : WorkerStep s t) :
    s.workerAlive = true := by
  cases h <;> assumption

theorem drain_eq (buf : List Nat) (alive : Bool) :
    drain ⟨buf, alive⟩ =
      (buf, (if alive then SearchState.Pending else .Finished), ⟨[], alive⟩) := by
  induction buf with
  | nil => simp [drain]
  | cons v rest ih => simp [drain, ih]

/-- Faithfulness of `drain` to the source loop: one unfolding step is
exactly a `try_get` poll. -/
theorem drain_unfold (s : SessionState) :
    drain s = match tryGet s with
      | .error e => ([], e, s)
      | .ok (v, t) => ((v :: (drain t).1, (drain t).2.1, (drain t).2.2)) := by
  obtain ⟨buf, alive⟩ := s
  cases buf <;> simp [drain, tryGet]

theorem tryGet_finished_iff (s : SessionState) :
    tryGet s = .error .Finished ↔ s.buffered = [] ∧ s.workerAlive = false := by
  obtain ⟨buf, alive⟩ := s
  cases buf <;> cases alive <;> simp [tryGet]

theorem sessionStep_not_finished {s t : SessionState}
    (h : tryGet s = .error .Finished) : ¬ SessionStep s t := by
  intro hstep
  obtain ⟨h1, h2⟩ := (tryGet_finished_iff s).mp h
  cases hstep with
  | worker hw =>
    have := workerStep_alive hw
    rw [h2] at this
    cases this
  | recv v hr =>
    rw [h] at hr
    cases hr

/-- Claim C7: try_get returns the next buffered offset when one is ready;
otherwise it returns Pending exactly when the channel is empty but the
worker can still act (sender alive), and Finished exactly when no
buffered offset remains and the worker can take no further step. -/
theorem claim_c7_tryGet_states (s : SessionState) :
    (∀ v rest, s.buffered = v :: rest → tryGet s = .ok (v, ⟨rest, s.workerAlive⟩)) ∧
    (tryGet s = .error .Pending ↔ s.buffered = [] ∧ ∃ t, WorkerStep s t) ∧
    (tryGet s = .error .Finished ↔ s.buffered = [] ∧ ∀ t, ¬ WorkerStep s t) := by
  refine ⟨?_, ?_, ?_⟩
  · obtain ⟨buf, alive⟩ := s
    intro v rest h
    have h2 : buf = v :: rest := h
    rw [h2]
    rfl
  · obtain ⟨buf, alive⟩ := s
    cases buf with
    | cons v rest => simp [tryGet]
    | nil =>
      cases alive with
      | true =>
        constructor
        · intro _
          exact ⟨rfl, ⟨_, WorkerStep.send ⟨[], true⟩ 0 rfl⟩⟩
        · intro _
          rfl
      | false =>
        constructor
        · intro h
          simp [tryGet] at h
        · rintro ⟨-, t, ht⟩
          have := workerStep_alive ht
          simp at this
  · rw [tryGet_finished_iff]
    constructor
    · rintro ⟨h1, h2⟩
      refine ⟨h1, fun t ht => ?_⟩
      have := workerStep_alive ht
      rw [h2] at this
      cases this
    · rintro ⟨h1, h2⟩
      refine ⟨h1, ?_⟩
      cases halive : s.workerAlive with
      | false => rfl
      | true => exact absurd (WorkerStep.send s 0 halive) (h2 _)

/-- Witness for claim C7 at the session state with buffered offset 3 and
a live worker. -/
theorem claim_c7_witness :
    tryGet ⟨[3], true⟩ = .ok (3, ⟨[], true⟩) ∧
    (tryGet (⟨[], true⟩ : SessionState) = .error .Pending ↔
      (⟨[], true⟩ : SessionState).buffered = [] ∧ ∃ t, WorkerStep ⟨[], true⟩ t) :=
  ⟨(claim_c7_tryGet_states ⟨[3], true⟩).1 3 [] rfl,
   (claim_c7_tryGet_states ⟨[], true⟩).2.1⟩

/-- Claim C8: drain invokes the callback once per buffered offset, in
order, until try_get yields Pending or Finished, and returns that state;
draining a Finished session with no buffered offsets invokes the
callback zero times, returns Finished, and doing it again is a no-op
that returns Finished again. -/
theorem claim_c8_drain (s : SessionState) :
    (drain s).1 = s.buffered ∧
    (drain s).2.1 = (if s.workerAlive then SearchState.Pending else .Finished) ∧
    (drain s).2.2 = ⟨[], s.workerAlive⟩ ∧
    (s.buffered = [] → s.workerAlive = false →
      drain s = ([], .Finished, s) ∧
        drain (drain s).2.2 = ([], .Finished, (drain s).2.2)) := by
  obtain ⟨buf, alive⟩ := s
  refine ⟨by simp [drain_eq], by simp [drain_eq], by simp [drain_eq], ?_⟩
  intro h1 h2
  have hb : buf = [] := h1
  have ha : alive = false := h2
  subst hb
  subst ha
  exact ⟨by simp [drain_eq], by simp [drain_eq]⟩

/-- Witness for claim C8 at the Finished-and-empty session state. -/
theorem claim_c8_witness :
    drain ⟨[], false⟩ = ([], .Finished, (⟨[], false⟩ : SessionState)) ∧
    (drain ⟨[4, 6], true⟩).1 = [4, 6] :=
  ⟨((claim_c8_drain ⟨[], false⟩).2.2.2 rfl rfl).1, (claim_c8_drain ⟨[4, 6], true⟩).1⟩

/-- Claim C9: cancel returns Ok exactly when the worker did not panic,
and a panicked worker is reported as the recoverable error value
"Sub-thread panicked" rather than a crash. -/
theorem claim_c9_cancel (outcome : WorkerOutcome) :
    (cancel outcome = Except.ok () ↔ outcome = .completed) ∧
    (outcome = .panicked → cancel outcome = Except.error "Sub-thread panicked") := by
  cases outcome <;> simp [cancel]

/-- Witness for claim C9 at the panicked worker outcome. -/
theorem claim_c9_witness :
    cancel .panicked = Except.error "Sub-thread panicked" :=
  (claim_c9_cancel .panicked).2 rfl

/-- Claim C10: Finished is terminal.  Once try_get reports Finished, no
interleaving of worker actions and consumer polls can change that: every
subsequent try_get reports Finished (never an offset, never Pending);
and whenever drain reports Finished, try_get on the session state drain
leaves behind reports Finished as well. -/
theorem claim_c10_finished_terminal :
    (∀ s s' : SessionState, tryGet s = .error .Finished →
      Relation.ReflTransGen SessionStep s s' → tryGet s' = .error .Finished) ∧
    (∀ s : SessionState, (drain s).2.1 = .Finished →
      tryGet (drain s).2.2 = .error .Finished) := by
  constructor
  · intro s s' h hreach
    induction hreach with
    | refl => exact h
    | tail hab hbc ih => exact absurd hbc (sessionStep_not_finished ih)
  · intro s hfin
    obtain ⟨buf, alive⟩ := s
    rw [drain_eq] at hfin ⊢
    cases alive with
    | true => simp at hfin
    | false => rfl

/-- Witness for claim C10 at the exhausted dead-worker session state. -/
theorem claim_c10_witness :
    tryGet (⟨[], false⟩ : SessionState) = .error .Finished :=
  claim_c10_finished_terminal.1 ⟨[], false⟩ ⟨[], false⟩ rfl .refl

end RSearch
